import Mathlib

/-
Verification of the goblockchain ledger engine (package block).

Shallow embedding conventions:
- Monetary values (Go float32) are modelled as exact rationals; every
  amount exercised here is small and integer-valued, where float32
  arithmetic is exact.
- A 32-byte SHA-256 digest is modelled as its 256-bit natural-number
  value.  The digest of a block (Go Block.Hash = sha256 over the canonical
  JSON serialization, with previousHash rendered as fixed-width lowercase
  hex) is an external primitive per the spec (section 6, canonical
  serialization for hashing); the development is parameterized over it as
  a function hash : Block -> Nat.  The Go format %x of a 32-byte array is
  the fixed-width 64-character lowercase hex string of that value, which
  hexChars below computes.
- ECDSA signature verification (Go ecdsa.Verify over the transaction
  digest) is likewise external (spec section 6, wallet/key management);
  AddTransaction is parameterized over verify : Transaction -> Bool, the
  verifier applied to the serialized transaction for the fixed public key
  and signature of the call.
- Go code that can panic (indexing an empty slice, dereferencing a nil
  response) or diverge (the unbounded nonce search) is embedded with
  Option results, the search with explicit fuel.
- Network effects (broadcasts to neighbours) have no bearing on the
  returned values or the local state and are dropped; the inbound side of
  ResolveConflicts (per-neighbour HTTP fetch results) is reified as an
  explicit list of FetchResult values.
-/

namespace GoBlockchain

/-- Go constant MINING_DIFFICULTY = 3. -/
def MINING_DIFFICULTY : Nat := 3

/-- Go constant MINING_SENDER = "THE BLOCKCHAIN". -/
def MINING_SENDER : String := "THE BLOCKCHAIN"

/-- Go constant MINING_REWARD = 1.0. -/
def MINING_REWARD : ℚ := 1

/-- Go struct Transaction: sender address, recipient address, value. -/
structure Transaction where
  senderBlockchainAddress : String
  recipientBlockchainAddress : String
  value : ℚ
deriving DecidableEq, Repr

/-- Go NewTransaction. -/
def NewTransaction (sender recipient : String) (value : ℚ) : Transaction :=
  { senderBlockchainAddress := sender
    recipientBlockchainAddress := recipient
    value := value }

/-- Go struct Block: nonce, previousHash ([32]byte digest, modelled as its
256-bit value), timestamp (nanoseconds), ordered transactions. -/
structure Block where
  nonce : Int
  previousHash : Nat
  timestamp : Int
  transactions : List Transaction
deriving DecidableEq, Repr

instance : Inhabited Block := ⟨⟨0, 0, 0, []⟩⟩

/-- Lowercase hex digit character for a value below 16 (Go fmt %x). -/
def hexDigitChar (k : Nat) : Char :=
  if k < 10 then Char.ofNat (48 + k) else Char.ofNat (87 + k)

/-- The 64-character fixed-width lowercase hex rendering of a 256-bit
digest value, most significant digit first; this is Go fmt.Sprintf("%x",
d) for a digest d : [32]byte. -/
def hexChars (n : Nat) : List Char :=
  (List.range 64).map fun i => hexDigitChar (n / 16 ^ (63 - i) % 16)

/-- Go struct Blockchain: the ledger aggregate.  Port, the neighbour list
and the mutexes are transport-level state; the neighbour interactions of
ResolveConflicts enter as an explicit argument instead. -/
structure Blockchain where
  transactionPool : List Transaction
  chain : List Block
  blockChainAddress : String
deriving DecidableEq, Repr

/-- Go Blockchain.ValidProof: build the trial block with timestamp 0 and
compare the leading characters of its hex digest with a run of
difficulty zero characters.  NOTE: faithful to the source, the slice
taken is guessHashStr[:3], a hardcoded 3, not difficulty. -/
def ValidProof (hash : Block → Nat) (nonce : Int) (previousHash : Nat)
    (transactions : List Transaction) (difficulty : Nat) : Bool :=
  let zeros := List.replicate difficulty '0'
  let guessBlock : Block :=
    { nonce := nonce, previousHash := previousHash, timestamp := 0
      transactions := transactions }
  let guessHashStr := hexChars (hash guessBlock)
  decide (guessHashStr.take 3 = zeros)

/-- The nonce search loop of Go Blockchain.ProofOfWork, generalized over
its inputs: starting from the given nonce, increment by 1 until
ValidProof holds.  The Go loop is unbounded; fuel makes it total, none
standing for non-termination within the budget. -/
def findNonceAux (hash : Block → Nat) (previousHash : Nat)
    (transactions : List Transaction) (difficulty : Nat) :
    Nat → Int → Option Int
  | 0, _ => none
  | fuel + 1, nonce =>
    if ValidProof hash nonce previousHash transactions difficulty then some nonce
    else findNonceAux hash previousHash transactions difficulty fuel (nonce + 1)

/-- The nonce search started at nonce 0, as in Go Blockchain.ProofOfWork. -/
def findNonce (hash : Block → Nat) (previousHash : Nat)
    (transactions : List Transaction) (difficulty : Nat) (fuel : Nat) : Option Int :=
  findNonceAux hash previousHash transactions difficulty fuel 0

/-- The loop body of Go Blockchain.ValidChain: walk the tail, failing if a
link or its proof of work is wrong. -/
def validChainLoop (hash : Block → Nat) : Block → List Block → Bool
  | _, [] => true
  | preBlock, b :: rest =>
    if b.previousHash ≠ hash preBlock then false
    else if ValidProof hash b.nonce b.previousHash b.transactions MINING_DIFFICULTY = false then false
    else validChainLoop hash b rest

/-- Go Blockchain.ValidChain.  The source unconditionally reads chain[0],
which panics on an empty slice; that is embedded as none. -/
def ValidChain (hash : Block → Nat) (chain : List Block) : Option Bool :=
  match chain with
  | [] => none
  | preBlock :: rest => some (validChainLoop hash preBlock rest)

/-- The per-transaction body of the Go Blockchain.CalculateTotalAmount
loop: credit the value when the address is the recipient, debit it when
the address is the sender. -/
def txApply (blockchainAddress : String) (totalAmount : ℚ) (t : Transaction) : ℚ :=
  let afterCredit :=
    if blockchainAddress = t.recipientBlockchainAddress then totalAmount + t.value
    else totalAmount
  if blockchainAddress = t.senderBlockchainAddress then afterCredit - t.value
  else afterCredit

/-- Go Blockchain.CalculateTotalAmount: fold txApply over every
transaction of every committed block, starting from 0.  The pool is not
consulted. -/
def CalculateTotalAmount (bc : Blockchain) (blockchainAddress : String) : ℚ :=
  bc.chain.foldl
    (fun totalAmount b => b.transactions.foldl (txApply blockchainAddress) totalAmount) 0

/-- Go Blockchain.AddTransaction.  verify abstracts
VerifyTransactionSignature for the public key and signature of the call
(external ECDSA primitive, spec section 6). -/
def AddTransaction (verify : Transaction → Bool) (bc : Blockchain)
    (sender recipient : String) (value : ℚ) : Bool × Blockchain :=
  let t := NewTransaction sender recipient value
  if sender = MINING_SENDER then
    (true, { bc with transactionPool := bc.transactionPool ++ [t] })
  else if verify t then
    if CalculateTotalAmount bc sender < value then (false, bc)
    else (true, { bc with transactionPool := bc.transactionPool ++ [t] })
  else (false, bc)

/-- Go Blockchain.CopyTransactionPool: a fresh Transaction per pool entry
with the same fields. -/
def CopyTransactionPool (bc : Blockchain) : List Transaction :=
  bc.transactionPool.map fun t =>
    NewTransaction t.senderBlockchainAddress t.recipientBlockchainAddress t.value

/-- Go Blockchain.LastBlock reads bc.Chain[len(bc.Chain)-1], which panics
on an empty chain; embedded as getLast?. -/
def LastBlock (bc : Blockchain) : Option Block :=
  bc.chain.getLast?

/-- Go Blockchain.CreateBlock: build a block from the live pool (newBlock
stamps it with the current time, passed here as now), append it to the
chain and clear the pool.  The neighbour DELETE broadcast is
transport-side and affects no returned state. -/
def CreateBlock (now : Int) (bc : Blockchain) (nonce : Int) (previousHash : Nat) :
    Block × Blockchain :=
  let block : Block :=
    { nonce := nonce, previousHash := previousHash, timestamp := now
      transactions := bc.transactionPool }
  (block, { bc with chain := bc.chain ++ [block], transactionPool := [] })

/-- Go Blockchain.ProofOfWork: copy the pool, hash the last block, search
from nonce 0 at MINING_DIFFICULTY. -/
def ProofOfWork (hash : Block → Nat) (bc : Blockchain) (fuel : Nat) : Option Int :=
  let transactions := CopyTransactionPool bc
  match LastBlock bc with
  | none => none
  | some lastBlock => findNonce hash (hash lastBlock) transactions MINING_DIFFICULTY fuel

/-- Go Blockchain.Mining: append the reward transaction to the pool via
AddTransaction (the MINING_SENDER branch returns before the signature is
ever consulted, so the verifier argument is irrelevant; the Go call
passes nil), run the nonce search, create the block from the hash of the
last block.  none models a search that does not finish within fuel or an
empty chain (where LastBlock panics).  The consensus PUT broadcast is
transport-side. -/
def Mining (hash : Block → Nat) (now : Int) (bc : Blockchain) (fuel : Nat) :
    Option (Bool × Blockchain) :=
  let bc1 := (AddTransaction (fun _ => false) bc MINING_SENDER bc.blockChainAddress MINING_REWARD).2
  match ProofOfWork hash bc1 fuel with
  | none => none
  | some nonce =>
    match LastBlock bc1 with
    | none => none
    | some lastBlock => some (true, (CreateBlock now bc1 nonce (hash lastBlock)).2)

/-- The candidate-selection loop of Go Blockchain.ResolveConflicts over
already-decoded peer chains: a fetched chain becomes the candidate when
it is strictly longer than the maximum seen so far and valid.  Go
evaluates the length guard first, so ValidChain is only reached on a
nonempty chain and its panic case is unreachable here. -/
def resolveLoop (hash : Block → Nat) :
    List (List Block) → Option (List Block) → Nat → Option (List Block)
  | [], longestChain, _ => longestChain
  | chain :: rest, longestChain, maxLength =>
    if maxLength < chain.length ∧ ValidChain hash chain = some true then
      resolveLoop hash rest (some chain) chain.length
    else
      resolveLoop hash rest longestChain maxLength

/-- Go Blockchain.ResolveConflicts restricted to successfully fetched and
decoded peer chains (the all-200, well-formed case of
ResolveConflictsNet below): returns whether the local chain was replaced
together with the resulting chain. -/
def ResolveConflicts (hash : Block → Nat) (localChain : List Block)
    (fetched : List (List Block)) : Bool × List Block :=
  match resolveLoop hash fetched none localChain.length with
  | some longestChain => (true, longestChain)
  | none => (false, localChain)

/-- The body a neighbour returned with a 200 status: either a decodable
chain or malformed data. -/
inductive PeerBody where
  | decodable (chain : List Block)
  | malformed
deriving DecidableEq, Repr

/-- The outcome of one neighbour chain fetch: fail is a transport-level
error from http.Get (the Go code discards the error, leaving resp nil);
response carries the HTTP status and the body. -/
inductive FetchResult where
  | fail
  | response (status : Nat) (body : PeerBody)
deriving DecidableEq, Repr

/-- What json Decode leaves in bcResp.Chain: the decoded chain, or the
zero value (an empty chain) when the body is malformed, since the Go code
discards the decode error. -/
def decodeChain : PeerBody → List Block
  | .decodable chain => chain
  | .malformed => []

/-- The neighbour loop of Go Blockchain.ResolveConflicts over raw fetch
results.  A transport failure leaves resp nil and the unconditional
resp.StatusCode dereference panics, embedded as none; a non-200 response
is skipped; a 200 response is decoded and fed to the candidate guard. -/
def resolveNetLoop (hash : Block → Nat) :
    List FetchResult → Option (List Block) → Nat → Option (Option (List Block))
  | [], longestChain, _ => some longestChain
  | .fail :: _, _, _ => none
  | .response status body :: rest, longestChain, maxLength =>
    if status = 200 then
      let chain := decodeChain body
      if maxLength < chain.length ∧ ValidChain hash chain = some true then
        resolveNetLoop hash rest (some chain) chain.length
      else
        resolveNetLoop hash rest longestChain maxLength
    else
      resolveNetLoop hash rest longestChain maxLength

/-- Go Blockchain.ResolveConflicts over raw per-neighbour fetch results:
none models the panic on a transport-failed fetch; otherwise the local
chain is replaced exactly when a candidate was selected. -/
def ResolveConflictsNet (hash : Block → Nat) (localChain : List Block)
    (results : List FetchResult) : Option (Bool × List Block) :=
  match resolveNetLoop hash results none localChain.length with
  | none => none
  | some (some longestChain) => some (true, longestChain)
  | some none => some (false, localChain)

/-- Specification-side total credits of an address over a transaction
list: the sum of the values of the transactions whose recipient it is. -/
def txCredits (blockchainAddress : String) (txs : List Transaction) : ℚ :=
  (txs.map fun t =>
    if blockchainAddress = t.recipientBlockchainAddress then t.value else 0).sum

/-- Specification-side total debits of an address over a transaction
list: the sum of the values of the transactions whose sender it is. -/
def txDebits (blockchainAddress : String) (txs : List Transaction) : ℚ :=
  (txs.map fun t =>
    if blockchainAddress = t.senderBlockchainAddress then t.value else 0).sum

/-- Every transaction of every committed block, in chain order. -/
def allTransactions : List Block → List Transaction
  | [] => []
  | b :: rest => b.transactions ++ allTransactions rest

/-- The condition Go Blockchain.ValidChain checks for one consecutive
pair: the link to the predecessor digest and the proof of work of the
current block at the fixed difficulty. -/
def chainLink (hash : Block → Nat) (a b : Block) : Prop :=
  b.previousHash = hash a ∧
    ValidProof hash b.nonce b.previousHash b.transactions MINING_DIFFICULTY = true

instance (hash : Block → Nat) (a b : Block) : Decidable (chainLink hash a b) := by
  unfold chainLink; infer_instance

/-- A concrete digest function for witnesses: every block digests to 0,
whose hex rendering is 64 zero characters. -/
def hZero : Block → Nat := fun _ => 0

/-- A concrete block used by witnesses. -/
def blockZ : Block := ⟨0, 0, 0, []⟩

/-- The reward transaction of the witness mining run. -/
def tReward : Transaction := ⟨"THE BLOCKCHAIN", "miner", 1⟩

/-- The block the witness mining run appends. -/
def blockMined : Block := ⟨0, 0, 0, [tReward]⟩

/-- The witness ledger before mining. -/
def bcMine : Blockchain := ⟨[], [blockZ], "miner"⟩

/-- The witness ledger after mining. -/
def bcMined : Blockchain := ⟨[], [blockZ, blockMined], "miner"⟩

/-- A witness ledger with an empty chain for the admission claim. -/
def bcW5 : Blockchain := ⟨[], [], "node"⟩

/-- A witness ledger whose single committed transaction involves neither
sender nor recipient "Z". -/
def bcW8 : Blockchain := ⟨[], [⟨0, 0, 0, [⟨"A", "B", 5⟩]⟩], "node"⟩

/-- A witness ledger where address "A" holds a committed balance of 20. -/
def bcTen : Blockchain := ⟨[], [⟨0, 0, 0, [⟨"G", "A", 20⟩]⟩], "node"⟩

/-- A verifier that accepts every signature, for concrete runs. -/
def vTrue : Transaction → Bool := fun _ => true

/-! Helper lemmas. -/

lemma hexChars_length (n : Nat) : (hexChars n).length = 64 := by
  simp [hexChars]

/-- What ValidProof actually decides: because the source compares the
slice guessHashStr[:3] (hardcoded 3) against difficulty zeros, it is true
exactly when the difficulty is 3 and the first 3 hex characters of the
trial digest are zero characters. -/
lemma validProof_iff (hash : Block → Nat) (nonce : Int) (previousHash : Nat)
    (transactions : List Transaction) (difficulty : Nat) :
    ValidProof hash nonce previousHash transactions difficulty = true ↔
      difficulty = 3 ∧
        (hexChars (hash { nonce := nonce, previousHash := previousHash, timestamp := 0
                          transactions := transactions })).take 3 = List.replicate 3 '0' := by
  unfold ValidProof
  simp only [decide_eq_true_eq]
  constructor
  · intro h
    have hlen := congrArg List.length h
    rw [List.length_take, hexChars_length, List.length_replicate] at hlen
    have hd : difficulty = 3 := by omega
    subst hd
    exact ⟨rfl, h⟩
  · rintro ⟨rfl, h⟩
    exact h

lemma validProof_ne_three (hash : Block → Nat) (nonce : Int) (previousHash : Nat)
    (transactions : List Transaction) (difficulty : Nat) (hd : difficulty ≠ 3) :
    ValidProof hash nonce previousHash transactions difficulty = false := by
  cases hb : ValidProof hash nonce previousHash transactions difficulty with
  | false => rfl
  | true =>
    exact absurd ((validProof_iff hash nonce previousHash transactions difficulty).mp hb).1 hd

lemma findNonceAux_valid (hash : Block → Nat) (previousHash : Nat)
    (transactions : List Transaction) (difficulty : Nat) :
    ∀ fuel nonce r, findNonceAux hash previousHash transactions difficulty fuel nonce = some r →
      ValidProof hash r previousHash transactions difficulty = true := by
  intro fuel
  induction fuel with
  | zero => intro nonce r h; simp [findNonceAux] at h
  | succ f ih =>
    intro nonce r h
    rw [findNonceAux] at h
    by_cases hv : ValidProof hash nonce previousHash transactions difficulty = true
    · rw [if_pos hv] at h
      cases h
      exact hv
    · rw [if_neg hv] at h
      exact ih (nonce + 1) r h

lemma findNonceAux_ne_three (hash : Block → Nat) (previousHash : Nat)
    (transactions : List Transaction) (difficulty : Nat) (hd : difficulty ≠ 3) :
    ∀ fuel nonce, findNonceAux hash previousHash transactions difficulty fuel nonce = none := by
  intro fuel
  induction fuel with
  | zero => intro nonce; rfl
  | succ f ih =>
    intro nonce
    rw [findNonceAux]
    rw [if_neg (by simp [validProof_ne_three hash nonce previousHash transactions difficulty hd])]
    exact ih (nonce + 1)

/-- The ValidChain loop accepts exactly when every consecutive pair of
the walked chain satisfies chainLink. -/
lemma validChainLoop_iff (hash : Block → Nat) :
    ∀ (rest : List Block) (preBlock : Block),
      validChainLoop hash preBlock rest = true ↔
        ∀ i, i < rest.length →
          chainLink hash ((preBlock :: rest).getD i default) (rest.getD i default) := by
  intro rest
  induction rest with
  | nil => intro preBlock; simp [validChainLoop]
  | cons b rest ih =>
    intro preBlock
    rw [validChainLoop]
    by_cases h1 : b.previousHash = hash preBlock
    · rw [if_neg (by simp [h1])]
      by_cases h2 : ValidProof hash b.nonce b.previousHash b.transactions MINING_DIFFICULTY = true
      · rw [if_neg (by simp [h2])]
        rw [ih b]
        constructor
        · intro h i hi
          match i with
          | 0 => simpa [chainLink] using And.intro h1 h2
          | j + 1 =>
            have hj : j < rest.length := by
              simpa [Nat.succ_lt_succ_iff] using hi
            simpa using h j hj
        · intro h i hi
          have := h (i + 1) (by simpa [Nat.succ_lt_succ_iff] using hi)
          simpa using this
      · rw [if_pos (by simpa using h2)]
        refine iff_of_false (by simp) ?_
        intro hAll
        have h0 := hAll 0 (by simp)
        simp [chainLink] at h0
        exact h2 h0.2
    · rw [if_pos h1]
      refine iff_of_false (by simp) ?_
      intro hAll
      have h0 := hAll 0 (by simp)
      simp [chainLink] at h0
      exact h1 h0.1

lemma resolveLoop_le (hash : Block → Nat) :
    ∀ (l : List (List Block)) (longest : Option (List Block)) (m : Nat) (r : List Block),
      (∀ c, longest = some c → m = c.length) →
      resolveLoop hash l longest m = some r → m ≤ r.length := by
  intro l
  induction l with
  | nil =>
    intro longest m r hinv h
    rw [resolveLoop] at h
    exact le_of_eq (hinv r h)
  | cons c rest ih =>
    intro longest m r hinv h
    rw [resolveLoop] at h
    by_cases hc : m < c.length ∧ ValidChain hash c = some true
    · rw [if_pos hc] at h
      have hle := ih (some c) c.length r (fun c' hc' => by cases hc'; rfl) h
      omega
    · rw [if_neg hc] at h
      exact ih longest m r hinv h

lemma resolveLoop_mem (hash : Block → Nat) :
    ∀ (l : List (List Block)) (longest : Option (List Block)) (m : Nat) (r : List Block),
      (∀ c, longest = some c → m = c.length) →
      resolveLoop hash l longest m = some r →
      (r ∈ l ∧ m < r.length ∧ ValidChain hash r = some true) ∨ longest = some r := by
  intro l
  induction l with
  | nil =>
    intro longest m r _ h
    rw [resolveLoop] at h
    exact Or.inr h
  | cons c rest ih =>
    intro longest m r hinv h
    rw [resolveLoop] at h
    by_cases hc : m < c.length ∧ ValidChain hash c = some true
    · rw [if_pos hc] at h
      rcases ih (some c) c.length r (fun c' hc' => by cases hc'; rfl) h with ⟨hmem, hlt, hval⟩ | heq
      · exact Or.inl ⟨List.mem_cons_of_mem c hmem, lt_trans hc.1 hlt, hval⟩
      · cases heq
        exact Or.inl ⟨List.mem_cons_self c rest, hc.1, hc.2⟩
    · rw [if_neg hc] at h
      rcases ih longest m r hinv h with ⟨hmem, hlt, hval⟩ | heq
      · exact Or.inl ⟨List.mem_cons_of_mem c hmem, hlt, hval⟩
      · exact Or.inr heq

lemma resolveLoop_some_ne_none (hash : Block → Nat) :
    ∀ (l : List (List Block)) (c : List Block) (m : Nat),
      resolveLoop hash l (some c) m ≠ none := by
  intro l
  induction l with
  | nil => intro c m h; rw [resolveLoop] at h; exact Option.noConfusion h
  | cons c' rest ih =>
    intro c m h
    rw [resolveLoop] at h
    by_cases hc : m < c'.length ∧ ValidChain hash c' = some true
    · rw [if_pos hc] at h
      exact ih c' c'.length h
    · rw [if_neg hc] at h
      exact ih c m h

lemma resolveLoop_none_iff (hash : Block → Nat) :
    ∀ (l : List (List Block)) (m : Nat),
      resolveLoop hash l none m = none ↔
        ∀ c ∈ l, ¬(m < c.length ∧ ValidChain hash c = some true) := by
  intro l
  induction l with
  | nil => intro m; simp [resolveLoop]
  | cons c rest ih =>
    intro m
    rw [resolveLoop]
    by_cases hc : m < c.length ∧ ValidChain hash c = some true
    · rw [if_pos hc]
      refine iff_of_false (resolveLoop_some_ne_none hash rest c c.length) ?_
      intro hAll
      exact hAll c (List.mem_cons_self c rest) hc
    · rw [if_neg hc]
      rw [ih m]
      constructor
      · intro h c' hc'
        rcases List.mem_cons.mp hc' with rfl | hmem
        · exact hc
        · exact h c' hmem
      · intro h c' hc'
        exact h c' (List.mem_cons_of_mem c hc')

lemma resolveLoop_valid_le (hash : Block → Nat) :
    ∀ (l : List (List Block)) (longest : Option (List Block)) (m : Nat) (r : List Block),
      (∀ c, longest = some c → m = c.length) →
      resolveLoop hash l longest m = some r →
      ∀ c ∈ l, ValidChain hash c = some true → c.length ≤ r.length := by
  intro l
  induction l with
  | nil => intro longest m r _ _ c hc; exact absurd hc (List.not_mem_nil c)
  | cons c rest ih =>
    intro longest m r hinv h c' hc' hval
    rw [resolveLoop] at h
    by_cases hcond : m < c.length ∧ ValidChain hash c = some true
    · rw [if_pos hcond] at h
      rcases List.mem_cons.mp hc' with rfl | hmem
      · exact resolveLoop_le hash rest (some c') c'.length r (fun c'' hc'' => by cases hc''; rfl) h
      · exact ih (some c) c.length r (fun c'' hc'' => by cases hc''; rfl) h c' hmem hval
    · rw [if_neg hcond] at h
      rcases List.mem_cons.mp hc' with rfl | hmem
      · have hm : ¬ m < c'.length := fun hlt => hcond ⟨hlt, hval⟩
        have hle := resolveLoop_le hash rest longest m r hinv h
        omega
      · exact ih longest m r hinv h c' hmem hval

/-- The neighbour-level loop agrees with the decoded-chain loop when every
fetch succeeds with status 200 and a decodable body. -/
lemma resolveNetLoop_ok (hash : Block → Nat) :
    ∀ (chains : List (List Block)) (longest : Option (List Block)) (m : Nat),
      resolveNetLoop hash
          (chains.map fun c => FetchResult.response 200 (PeerBody.decodable c)) longest m =
        some (resolveLoop hash chains longest m) := by
  intro chains
  induction chains with
  | nil => intro longest m; rfl
  | cons c rest ih =>
    intro longest m
    rw [List.map_cons, resolveNetLoop, resolveLoop]
    rw [if_pos rfl]
    simp only [decodeChain]
    by_cases hc : m < c.length ∧ ValidChain hash c = some true
    · rw [if_pos hc, if_pos hc]
      exact ih (some c) c.length
    · rw [if_neg hc, if_neg hc]
      exact ih longest m

/-! Claim theorems. -/

/-- C1 (corrected): for every difficulty d, ValidProof(n, p, txs, d)
returns true iff d = 3 and the first 3 hexadecimal characters of the
digest of the trial block built from (n, p, txs) with timestamp 0 are all
the character 0.  The source compares the first 3 characters of the
digest, not the first d, against a run of d zero characters, so the
claimed equivalence holds only at d = 3 and the predicate is constantly
false at every other difficulty. -/
theorem c1_theorem (hash : Block → Nat) (nonce : Int) (previousHash : Nat)
    (transactions : List Transaction) (difficulty : Nat) :
    ValidProof hash nonce previousHash transactions difficulty = true ↔
      difficulty = 3 ∧
        (hexChars (hash { nonce := nonce, previousHash := previousHash, timestamp := 0
                          transactions := transactions })).take 3 = List.replicate 3 '0' :=
  validProof_iff hash nonce previousHash transactions difficulty

/-- C1 counterexample: at difficulty 0 the claimed predicate (first 0 hex
characters of the trial digest are all zero characters) holds trivially,
yet ValidProof returns false, because the code compares a 3-character
slice of the digest with the empty string. -/
theorem c1_counterexample :
    (hexChars (hZero { nonce := 0, previousHash := 0, timestamp := 0
                       transactions := [] })).take 0 = List.replicate 0 '0' ∧
      ValidProof hZero 0 0 [] 0 = false :=
  ⟨rfl, by decide⟩

/-- C1 witness: at difficulty 3 and the all-zero digest function the
equivalence is inhabited on its true side. -/
theorem c1_witness : ValidProof hZero 0 0 [] 3 = true :=
  (c1_theorem hZero 0 0 [] 3).mpr ⟨rfl, by decide⟩

/-- C2 (corrected): for every nonempty chain, ValidChain returns some
true iff every index i at least 1 satisfies the predecessor-digest link
and the proof-of-work predicate at the fixed difficulty 3; a chain with
exactly 1 block is trivially valid.  (On the empty chain the source
panics indexing chain[0] instead of returning true; the function is pure
and never mutates its argument or the ledger.) -/
theorem c2_theorem (hash : Block → Nat) (chain : List Block) (hne : chain ≠ []) :
    ValidChain hash chain = some true ↔
      ∀ i, 1 ≤ i → i < chain.length →
        (chain.getD i default).previousHash = hash (chain.getD (i - 1) default) ∧
          ValidProof hash (chain.getD i default).nonce (chain.getD i default).previousHash
            (chain.getD i default).transactions MINING_DIFFICULTY = true := by
  match chain with
  | [] => exact absurd rfl hne
  | preBlock :: rest =>
    simp only [ValidChain, Option.some.injEq]
    rw [validChainLoop_iff]
    constructor
    · intro h i h1 h2
      obtain ⟨j, rfl⟩ : ∃ j, i = j + 1 := ⟨i - 1, by omega⟩
      have hj : j < rest.length := by
        simpa [Nat.succ_lt_succ_iff] using h2
      have hlink := h j hj
      rw [Nat.add_sub_cancel]
      simp only [List.getD_cons_succ]
      exact hlink
    · intro h j hj
      have hlink := h (j + 1) (by omega) (by simpa [Nat.succ_lt_succ_iff] using hj)
      rw [Nat.add_sub_cancel] at hlink
      simp only [List.getD_cons_succ] at hlink
      exact hlink

/-- C2 counterexample: on the empty chain the code does not return true;
it panics reading chain[0] (embedded as none). -/
theorem c2_counterexample :
    ValidChain hZero ([] : List Block) = none ∧
      ValidChain hZero ([] : List Block) ≠ some true :=
  ⟨rfl, by decide⟩

/-- C2 witness: a 1-block chain is valid, obtained from the equivalence
with the vacuous pairwise condition. -/
theorem c2_witness : ValidChain hZero [blockZ] = some true := by
  refine (c2_theorem hZero [blockZ] (by decide)).mpr ?_
  intro i h1 h2
  simp only [List.length_cons, List.length_nil] at h2
  omega

/-- C3 (corrected): whenever the proof-of-work search starting at nonce 0
and incrementing by 1 returns a nonce n (within any fuel budget), that
nonce satisfies ValidProof at the searched difficulty.  The original
claim that the search returns for every difficulty d is false: for d
other than 3 the predicate is constantly false and the search never
terminates. -/
theorem c3_theorem (hash : Block → Nat) (previousHash : Nat)
    (transactions : List Transaction) (difficulty fuel : Nat) (n : Int)
    (h : findNonce hash previousHash transactions difficulty fuel = some n) :
    ValidProof hash n previousHash transactions difficulty = true :=
  findNonceAux_valid hash previousHash transactions difficulty fuel 0 n h

/-- C3 counterexample: at difficulty 0 the search never returns a nonce,
for any fuel, because ValidProof at difficulty 0 is constantly false. -/
theorem c3_counterexample : ¬ ∃ fuel n, findNonce hZero 0 [] 0 fuel = some n := by
  rintro ⟨fuel, n, h⟩
  rw [findNonce, findNonceAux_ne_three hZero 0 [] 0 (by decide) fuel 0] at h
  exact Option.noConfusion h

/-- C3 witness: at difficulty 3 and the all-zero digest function the
search returns nonce 0 and that nonce satisfies the predicate. -/
theorem c3_witness :
    findNonce hZero 0 [] 3 1 = some 0 ∧ ValidProof hZero 0 0 [] 3 = true :=
  ⟨by decide, c3_theorem hZero 0 [] 3 1 0 (by decide)⟩

/-- C4 (confirmed): over any local chain and any list of fetched peer
chains, ResolveConflicts reports a replacement exactly when some fetched
chain is strictly longer than the local chain and passes chain
validation; on replacement the adopted chain is one of the fetched
chains, strictly longer than the local chain, and valid; otherwise the
chain is unchanged. -/
theorem c4_theorem (hash : Block → Nat) (localChain : List Block)
    (fetched : List (List Block)) :
    ((ResolveConflicts hash localChain fetched).1 = true ↔
        ∃ c, c ∈ fetched ∧ localChain.length < c.length ∧ ValidChain hash c = some true) ∧
      ((ResolveConflicts hash localChain fetched).1 = true →
        (ResolveConflicts hash localChain fetched).2 ∈ fetched ∧
          localChain.length < (ResolveConflicts hash localChain fetched).2.length ∧
          ValidChain hash (ResolveConflicts hash localChain fetched).2 = some true) ∧
      ((ResolveConflicts hash localChain fetched).1 = false →
        (ResolveConflicts hash localChain fetched).2 = localChain) := by
  rcases hres : resolveLoop hash fetched none localChain.length with _ | r
  · have hred : ResolveConflicts hash localChain fetched = (false, localChain) := by
      simp [ResolveConflicts, hres]
    rw [hred]
    refine ⟨iff_of_false (by simp) ?_, by simp, fun _ => rfl⟩
    rintro ⟨c, hc, hlt, hval⟩
    exact (resolveLoop_none_iff hash fetched localChain.length).mp hres c hc ⟨hlt, hval⟩
  · have hred : ResolveConflicts hash localChain fetched = (true, r) := by
      simp [ResolveConflicts, hres]
    rw [hred]
    rcases resolveLoop_mem hash fetched none localChain.length r
        (fun c hc => Option.noConfusion hc) hres with ⟨hmem, hlt, hval⟩ | heq
    · exact ⟨iff_of_true rfl ⟨r, hmem, hlt, hval⟩, fun _ => ⟨hmem, hlt, hval⟩, by simp⟩
    · exact Option.noConfusion heq

/-- C4 witness: with the all-zero digest function, a fetched 2-block
valid chain replaces a 1-block local chain and the result is strictly
longer. -/
theorem c4_witness :
    (ResolveConflicts hZero [blockZ] [[blockZ, blockZ]]).1 = true ∧
      [blockZ].length < (ResolveConflicts hZero [blockZ] [[blockZ, blockZ]]).2.length := by
  have h := c4_theorem hZero [blockZ] [[blockZ, blockZ]]
  have hrep : (ResolveConflicts hZero [blockZ] [[blockZ, blockZ]]).1 = true :=
    h.1.mpr ⟨[blockZ, blockZ], by decide, by decide, by decide⟩
  exact ⟨hrep, (h.2.1 hrep).2.1⟩

/-- C6 (code_bug evaluation): a transport-failed fetch makes the Go code
dereference the nil response and panic (none), instead of skipping the
neighbour as the claim states; by contrast a non-200 response and a
malformed 200 body are skipped, contribute no candidate, and the pass
completes with the chain unchanged. -/
theorem c6_theorem :
    ResolveConflictsNet hZero [blockZ] [FetchResult.fail] = none ∧
      ResolveConflictsNet hZero [blockZ]
          [FetchResult.response 404 (PeerBody.decodable [blockZ, blockZ]),
            FetchResult.response 200 PeerBody.malformed] = some (false, [blockZ]) := by
  exact ⟨rfl, by decide⟩

/-- C9 (confirmed): running ResolveConflicts a second time over the same
fetched peer chains, starting from the chain the first run produced,
reports no replacement and leaves the chain identical. -/
theorem c9_theorem (hash : Block → Nat) (localChain : List Block)
    (fetched : List (List Block)) :
    ResolveConflicts hash (ResolveConflicts hash localChain fetched).2 fetched =
      (false, (ResolveConflicts hash localChain fetched).2) := by
  rcases hres : resolveLoop hash fetched none localChain.length with _ | r
  · have hred : ResolveConflicts hash localChain fetched = (false, localChain) := by
      simp [ResolveConflicts, hres]
    rw [hred]
    exact hred
  · have hred : ResolveConflicts hash localChain fetched = (true, r) := by
      simp [ResolveConflicts, hres]
    rw [hred]
    have hbound := resolveLoop_valid_le hash fetched none localChain.length r
      (fun c hc => Option.noConfusion hc) hres
    have hnone : resolveLoop hash fetched none r.length = none :=
      (resolveLoop_none_iff hash fetched r.length).mpr
        (fun c hc h => by have := hbound c hc h.2; omega)
    simp [ResolveConflicts, hnone]

/-- C9 witness: a concrete instance of the idempotence theorem. -/
theorem c9_witness :
    ResolveConflicts hZero (ResolveConflicts hZero [blockZ] [[blockZ, blockZ]]).2
        [[blockZ, blockZ]] =
      (false, (ResolveConflicts hZero [blockZ] [[blockZ, blockZ]]).2) :=
  c9_theorem hZero [blockZ] [[blockZ, blockZ]]

/-- C5 (confirmed): for a sender other than the reserved mining identity,
AddTransaction returns false and leaves the ledger (pool included)
unchanged when the signature verifier rejects the transaction — for
every chain, so the balance is not consulted on that path; when the
verifier accepts but the committed-chain balance is below the amount it
returns false and leaves the ledger unchanged; only otherwise is the
transaction appended to the pool and true returned. -/
theorem c5_theorem (verify : Transaction → Bool) (bc : Blockchain)
    (sender recipient : String) (value : ℚ) (hs : sender ≠ MINING_SENDER) :
    (verify (NewTransaction sender recipient value) = false →
        AddTransaction verify bc sender recipient value = (false, bc)) ∧
      (verify (NewTransaction sender recipient value) = true →
        CalculateTotalAmount bc sender < value →
        AddTransaction verify bc sender recipient value = (false, bc)) ∧
      (verify (NewTransaction sender recipient value) = true →
        ¬ CalculateTotalAmount bc sender < value →
        AddTransaction verify bc sender recipient value =
          (true, { bc with transactionPool :=
            bc.transactionPool ++ [NewTransaction sender recipient value] })) := by
  simp only [AddTransaction]
  rw [if_neg hs]
  refine ⟨fun hv => ?_, fun hv hb => ?_, fun hv hb => ?_⟩
  · rw [if_neg (by simp [hv])]
  · rw [if_pos hv, if_pos hb]
  · rw [if_pos hv, if_neg hb]

/-- C5 witness: a rejected signature yields false and an unchanged
ledger. -/
theorem c5_witness : AddTransaction (fun _ => false) bcW5 "A" "B" 1 = (false, bcW5) :=
  (c5_theorem (fun _ => false) bcW5 "A" "B" 1 (by decide)).1 rfl

lemma getLast?_append_singleton {α : Type} (l : List α) (a : α) :
    (l ++ [a]).getLast? = some a :=
  List.getLast?_concat l

/-- C8 helper: the per-transaction update adds the conditional credit and
subtracts the conditional debit. -/
lemma txApply_eq (addr : String) (acc : ℚ) (t : Transaction) :
    txApply addr acc t =
      acc + (if addr = t.recipientBlockchainAddress then t.value else 0)
        - (if addr = t.senderBlockchainAddress then t.value else 0) := by
  unfold txApply
  split_ifs <;> ring

lemma foldl_txApply (addr : String) :
    ∀ (txs : List Transaction) (acc : ℚ),
      txs.foldl (txApply addr) acc = acc + txCredits addr txs - txDebits addr txs := by
  intro txs
  induction txs with
  | nil => intro acc; simp [txCredits, txDebits]
  | cons t ts ih =>
    intro acc
    rw [List.foldl_cons, ih, txApply_eq]
    simp only [txCredits, txDebits, List.map_cons, List.sum_cons]
    ring

lemma foldl_blocks (addr : String) :
    ∀ (chain : List Block) (acc : ℚ),
      chain.foldl (fun acc b => b.transactions.foldl (txApply addr) acc) acc =
        acc + txCredits addr (allTransactions chain)
          - txDebits addr (allTransactions chain) := by
  intro chain
  induction chain with
  | nil => intro acc; simp [allTransactions, txCredits, txDebits]
  | cons b rest ih =>
    intro acc
    rw [List.foldl_cons, ih, foldl_txApply]
    simp only [allTransactions, txCredits, txDebits, List.map_append, List.sum_append]
    ring

/-- C8 (confirmed): the committed-chain balance of an address equals the
sum of the values of committed transactions crediting it minus the sum of
those debiting it, the pool being ignored; an address appearing in no
committed transaction has balance 0.  The embedding is a pure function of
the ledger, mutating nothing. -/
theorem c8_theorem (bc : Blockchain) (addr : String) :
    CalculateTotalAmount bc addr =
        txCredits addr (allTransactions bc.chain) - txDebits addr (allTransactions bc.chain) ∧
      ((∀ t ∈ allTransactions bc.chain,
          t.senderBlockchainAddress ≠ addr ∧ t.recipientBlockchainAddress ≠ addr) →
        CalculateTotalAmount bc addr = 0) := by
  have h1 : CalculateTotalAmount bc addr =
      txCredits addr (allTransactions bc.chain) - txDebits addr (allTransactions bc.chain) := by
    unfold CalculateTotalAmount
    rw [foldl_blocks]
    ring
  refine ⟨h1, fun hall => ?_⟩
  rw [h1]
  have hc : txCredits addr (allTransactions bc.chain) = 0 := by
    unfold txCredits
    apply List.sum_eq_zero
    intro x hx
    rcases List.mem_map.mp hx with ⟨t, ht, rfl⟩
    exact if_neg fun he => (hall t ht).2 he.symm
  have hd : txDebits addr (allTransactions bc.chain) = 0 := by
    unfold txDebits
    apply List.sum_eq_zero
    intro x hx
    rcases List.mem_map.mp hx with ⟨t, ht, rfl⟩
    exact if_neg fun he => (hall t ht).1 he.symm
  rw [hc, hd]
  ring

/-- C8 witness: an address absent from the committed chain has balance 0. -/
theorem c8_witness : CalculateTotalAmount bcW8 "Z" = 0 :=
  (c8_theorem bcW8 "Z").2 (by decide)

/-- C7 (confirmed): whenever Mining returns (the nonce search finished
within fuel on a nonempty chain), it returns true, the chain has grown by
exactly the one new last block, that block's transactions are the prior
pool contents in order followed by the single reward transaction
crediting the node's own address with MINING_REWARD from MINING_SENDER,
and the pool is left empty. -/
theorem c7_theorem (hash : Block → Nat) (now : Int) (bc : Blockchain) (fuel : Nat)
    (r : Bool) (bc' : Blockchain) (h : Mining hash now bc fuel = some (r, bc')) :
    r = true ∧ bc'.transactionPool = [] ∧ bc'.chain.length = bc.chain.length + 1 ∧
      ∃ blk, bc'.chain = bc.chain ++ [blk] ∧ bc'.chain.getLast? = some blk ∧
        blk.transactions = bc.transactionPool ++
          [NewTransaction MINING_SENDER bc.blockChainAddress MINING_REWARD] := by
  have hbc1 : (AddTransaction (fun _ => false) bc MINING_SENDER bc.blockChainAddress
      MINING_REWARD).2 =
      { bc with transactionPool := bc.transactionPool ++
          [NewTransaction MINING_SENDER bc.blockChainAddress MINING_REWARD] } := by
    simp [AddTransaction]
  rw [Mining, hbc1] at h
  rcases hpow : ProofOfWork hash
      { bc with transactionPool := bc.transactionPool ++
          [NewTransaction MINING_SENDER bc.blockChainAddress MINING_REWARD] } fuel
    with _ | nonce
  · rw [hpow] at h
    simp at h
  · rw [hpow] at h
    rcases hlast : LastBlock
        { bc with transactionPool := bc.transactionPool ++
            [NewTransaction MINING_SENDER bc.blockChainAddress MINING_REWARD] }
      with _ | lb
    · rw [hlast] at h
      simp at h
    · rw [hlast] at h
      simp only [CreateBlock, Option.some.injEq, Prod.mk.injEq] at h
      obtain ⟨hr, hbc⟩ := h
      subst hbc
      refine ⟨hr.symm, rfl, by simp, ?_⟩
      exact ⟨_, rfl, getLast?_append_singleton _ _, rfl⟩

/-- C7 witness: a concrete mining run with the all-zero digest function
succeeds within fuel 1 and the postconditions hold. -/
theorem c7_witness :
    Mining hZero 0 bcMine 1 = some (true, bcMined) ∧
      bcMined.transactionPool = [] ∧ bcMined.chain.length = bcMine.chain.length + 1 := by
  have h := c7_theorem hZero 0 bcMine 1 true bcMined (by decide)
  exact ⟨by decide, h.2.1, h.2.2.1⟩

/-- C10 (confirmed): admission checks the committed chain only, so from a
chain where sender A holds balance 20, two transfers of 15 from A — each
individually within the balance, together exceeding it — are both
admitted with valid signatures, both return true, and both sit in the
pool. -/
theorem c10_theorem :
    CalculateTotalAmount bcTen "A" = 20 ∧
      (15 : ℚ) ≤ CalculateTotalAmount bcTen "A" ∧
      CalculateTotalAmount bcTen "A" < 15 + 15 ∧
      AddTransaction vTrue bcTen "A" "B" 15 =
        (true, ⟨[NewTransaction "A" "B" 15], bcTen.chain, "node"⟩) ∧
      AddTransaction vTrue (⟨[NewTransaction "A" "B" 15], bcTen.chain, "node"⟩ : Blockchain)
          "A" "C" 15 =
        (true, ⟨[NewTransaction "A" "B" 15, NewTransaction "A" "C" 15], bcTen.chain, "node"⟩) := by
  have h20 : CalculateTotalAmount bcTen "A" = 20 := by
    simp [CalculateTotalAmount, bcTen, txApply]
  refine ⟨h20, by rw [h20]; norm_num, by rw [h20]; norm_num, ?_, ?_⟩
  · simp [AddTransaction, vTrue, MINING_SENDER, CalculateTotalAmount, bcTen, txApply,
      NewTransaction]
    norm_num
  · simp [AddTransaction, vTrue, MINING_SENDER, CalculateTotalAmount, bcTen, txApply,
      NewTransaction]
    norm_num

end GoBlockchain
